import Mathlib

/-!
Shallow embedding of `SingleLinkedList.h`: a generic singly linked list with a
sentinel head node (`head_`), a stored element count (`size_`), forward
iterators, splice-based `InsertAfter`/`EraseAfter`, copy-and-swap assignment,
and the free comparison operators.

Modelling conventions:
* The chain reachable from the sentinel is represented by the list `elems` of
  the values held by the real nodes, in traversal order (`begin()` to `end()`).
  Finiteness and acyclicity of the chain, and the empty link of the last node,
  are structural facts of this representation.
* `size_` is the stored count, modelled as `Nat` (an idealised `size_t`; every
  claim below stays in the regime where no underflow occurs).
* A position handle (`ConstIterator`/`Iterator`) referencing a node of the
  chain is modelled by the node's index `p : Nat`: `p = 0` is the sentinel
  (`before_begin()`), `p = i` (1-based) is the i-th real node, whose value is
  `elems[i-1]`.  A returned, possibly null, node pointer is `Option Nat`
  (`none` = `nullptr` = `end()`).
* A C++ operation whose evaluation would dereference a null pointer (undefined
  behaviour) is modelled with `Option`, `none` marking the UB path.
-/

/-- The container: values of the real node chain in traversal order, plus the
stored count `size_`.  (`Node head_ = {}; size_t size_ = 0;`) -/
structure SingleLinkedList (α : Type) : Type where
  elems : List α
  size_ : Nat
deriving DecidableEq

/-- `SingleLinkedList() = default`: empty chain, `size_ = 0`. -/
def SingleLinkedList.emptyList (α : Type) : SingleLinkedList α := ⟨[], 0⟩

/-- `GetSize()`: returns `size_`. -/
def SingleLinkedList.GetSize {α : Type} (s : SingleLinkedList α) : Nat := s.size_

/-- `IsEmpty()`: returns `size_ == 0`. -/
def SingleLinkedList.IsEmpty {α : Type} (s : SingleLinkedList α) : Bool := s.size_ == 0

/-- `PushFront(value)`: `head_.next_node = new Node(value, head_.next_node); ++size_;` -/
def SingleLinkedList.PushFront {α : Type} (s : SingleLinkedList α) (v : α) :
    SingleLinkedList α :=
  ⟨v :: s.elems, s.size_ + 1⟩

/-- Effect on the value chain of `pos.node_->next_node = new Node(value, pos.node_->next_node)`
when `pos` references node `p` of the chain: the new value appears immediately
after the first `p` values.  (A `p` beyond the chain does not reference a node
in it — undefined behaviour in C++; the clause for it is an arbitrary total
value, never used under the preconditions below.) -/
def linkIn {α : Type} : List α → Nat → α → List α
  | l, 0, v => v :: l
  | [], Nat.succ _, v => [v]
  | x :: l, Nat.succ p, v => x :: linkIn l p v

/-- Effect on the value chain of `pos.node_->next_node = temp->next_node` where
`temp = pos.node_->next_node` and `pos` references node `p`: the value at index
`p` (held by node `p+1`) is spliced out. -/
def unlink {α : Type} : List α → Nat → List α
  | [], _ => []
  | _ :: l, 0 => l
  | x :: l, Nat.succ p => x :: unlink l p

/-- `InsertAfter(pos, value)`: allocates `new Node(value, pos.node_->next_node)`,
relinks `pos.node_->next_node` to it, `++size_`, returns an iterator to the
new node (node index `p + 1`). -/
def SingleLinkedList.InsertAfter {α : Type} (s : SingleLinkedList α) (p : Nat) (v : α) :
    SingleLinkedList α × Nat :=
  (⟨linkIn s.elems p v, s.size_ + 1⟩, p + 1)

/-- `EraseAfter(pos)`: unlinks and deletes `pos.node_->next_node` (node `p+1`,
value index `p`), `--size_`, returns `Iterator(pos.node_->next_node)` — the
node now following `pos` in the new chain, or `nullptr` when there is none. -/
def SingleLinkedList.EraseAfter {α : Type} (s : SingleLinkedList α) (p : Nat) :
    SingleLinkedList α × Option Nat :=
  let l := unlink s.elems p
  (⟨l, s.size_ - 1⟩, if p < l.length then some (p + 1) else none)

/-- `PopFront()`: `EraseAfter(before_begin())`. -/
def SingleLinkedList.PopFront {α : Type} (s : SingleLinkedList α) : SingleLinkedList α :=
  (s.EraseAfter 0).1

/-- `Clear()`: `while (head_.next_node != nullptr) PopFront();` -/
def SingleLinkedList.Clear {α : Type} : SingleLinkedList α → SingleLinkedList α
  | ⟨[], n⟩ => ⟨[], n⟩
  | ⟨x :: l, n⟩ => SingleLinkedList.Clear (SingleLinkedList.PopFront ⟨x :: l, n⟩)
termination_by s => s.elems.length
decreasing_by
  simp [SingleLinkedList.PopFront, SingleLinkedList.EraseAfter, unlink]

/-- `swap(other)`: exchanges `head_.next_node` and `size_` of the two lists;
the pair is (new `*this*` state, new `other` state). -/
def SingleLinkedList.swap {α : Type} (a b : SingleLinkedList α) :
    SingleLinkedList α × SingleLinkedList α :=
  (⟨b.elems, b.size_⟩, ⟨a.elems, a.size_⟩)

/-- The loop of `CopyList`: `node_it` references node index `pos` of `tmp`'s
chain (initially `tmp.before_begin()`, i.e. 0).  Each iteration executes
`++node_it = InsertAfter(node_it, val); ++tmp.size_;`.  `InsertAfter` is a call
on `*this*`: it splices the new node into `tmp`'s chain after `node_it` but
increments `this->size_`; the returned iterator — node `pos + 1` of `tmp`'s
chain — is the incremented-and-assigned new value of `node_it`.  Arguments:
remaining input values, `tmp`'s chain, `pos`, `this->size_`, `tmp.size_`;
result: (`tmp`'s chain, `this->size_`, `tmp.size_`) at loop exit. -/
def copyLoop {α : Type} : List α → List α → Nat → Nat → Nat → List α × Nat × Nat
  | [], tmpElems, _, thisSize, tmpSize => (tmpElems, thisSize, tmpSize)
  | v :: rest, tmpElems, pos, thisSize, tmpSize =>
      copyLoop rest (linkIn tmpElems pos v) (pos + 1) (thisSize + 1) (tmpSize + 1)

/-- `CopyList(other)`: builds `other`'s values into the scratch list `tmp` via
the loop above, then `swap(tmp)`: `*this*` receives `tmp`'s chain and `tmp`'s
count; `tmp` — now holding the former chain of `*this*` and the inflated
`this->size_` — is destroyed at scope exit. -/
def SingleLinkedList.CopyList {α : Type} (s : SingleLinkedList α) (other : List α) :
    SingleLinkedList α :=
  let r := copyLoop other [] 0 s.size_ 0
  ⟨r.1, r.2.2⟩

/-- `SingleLinkedList(std::initializer_list<Type> values)`: members are first
default-initialised (`head_ = {}`, `size_ = 0`), then `CopyList(values)` runs. -/
def SingleLinkedList.ofList {α : Type} (vals : List α) : SingleLinkedList α :=
  (SingleLinkedList.emptyList α).CopyList vals

/-- `SingleLinkedList(const SingleLinkedList& other)`: members default-initialised
(checked by the `assert`), then `CopyList(other)`, which traverses `other` from
`begin()` to `end()`, i.e. reads `other.elems` in order. -/
def SingleLinkedList.copyCtor {α : Type} (other : SingleLinkedList α) : SingleLinkedList α :=
  (SingleLinkedList.emptyList α).CopyList other.elems

/-- `operator=`: `same` models the identity test `this == &rhs` (so `same = true`
forces `rhs` to be the very object `a`).  When not self, a full temporary copy
of `rhs` is built and then swapped into `*this*`. -/
def SingleLinkedList.operatorAssign {α : Type} (same : Bool) (a rhs : SingleLinkedList α) :
    SingleLinkedList α :=
  if same then a else (SingleLinkedList.swap a rhs.copyCtor).1

/-- `std::equal(lhs.begin(), lhs.end(), rhs.begin())` as used by `operator==`:
walks `lhs` comparing element-wise with the chain starting at `rhs.begin()`.
It stops at the first mismatch; if `lhs` is longer than `rhs` and no mismatch
occurs first, it dereferences `rhs`'s null end iterator — undefined behaviour,
modelled as `none`. -/
def stdEqual {α : Type} [DecidableEq α] : List α → List α → Option Bool
  | [], _ => some true
  | _ :: _, [] => none
  | a :: l, b :: r => if a = b then stdEqual l r else some false

/-- `operator==(lhs, rhs)`: `std::equal(lhs.begin(), lhs.end(), rhs.begin())`. -/
def operatorEq {α : Type} [DecidableEq α] (a b : SingleLinkedList α) : Option Bool :=
  stdEqual a.elems b.elems

/-- `operator!=(lhs, rhs)`: `!(lhs == rhs)` (undefined where `==` is). -/
def operatorNe {α : Type} [DecidableEq α] (a b : SingleLinkedList α) : Option Bool :=
  (operatorEq a b).map (fun x => !x)

/-- `std::lexicographical_compare(first1, last1, first2, last2)` on the two
value chains (the four-iterator form: both ends are known). -/
def lexicographicalCompare {α : Type} [LT α] [DecidableRel ((. < .) : α → α → Prop)] :
    List α → List α → Bool
  | _, [] => false
  | [], _ :: _ => true
  | a :: l, b :: r => if a < b then true else if b < a then false else lexicographicalCompare l r

/-- `operator<(lhs, rhs)`: `std::lexicographical_compare(lhs.begin(), lhs.end(), rhs.begin(), rhs.end())`. -/
def operatorLt {α : Type} [LT α] [DecidableRel ((. < .) : α → α → Prop)]
    (a b : SingleLinkedList α) : Bool :=
  lexicographicalCompare a.elems b.elems

/-- `operator<=(lhs, rhs)`: `!(rhs < lhs)`. -/
def operatorLe {α : Type} [LT α] [DecidableRel ((. < .) : α → α → Prop)]
    (a b : SingleLinkedList α) : Bool :=
  !(operatorLt b a)

/-- `operator>(lhs, rhs)`: `rhs < lhs`. -/
def operatorGt {α : Type} [LT α] [DecidableRel ((. < .) : α → α → Prop)]
    (a b : SingleLinkedList α) : Bool :=
  operatorLt b a

/-- `operator>=(lhs, rhs)`: `!(lhs < rhs)`. -/
def operatorGe {α : Type} [LT α] [DecidableRel ((. < .) : α → α → Prop)]
    (a b : SingleLinkedList α) : Bool :=
  !(operatorLt a b)

/-!
Exception model.  The only operation of the element type that may throw is its
copy constructor, invoked inside `new Node(value, next)`.  A copy function
`cp : α → Option α` models it: `none` means the copy throws (the exception
propagates out of the container operation), `some w` that it yields `w`.
The faithful copy of C++ is `cp = some`.
-/

/-- `InsertAfter(pos, value)` with a throwing element copy.  The source order
is: `new Node(value, pos.node_->next_node)` first — if the copy throws here,
the exception propagates before `pos.node_->next_node = insert_node` and
`++size_` execute, so the container state is the unchanged `s`.  Result:
(container state after the call, `some` returned iterator or `none` if the
call threw). -/
def SingleLinkedList.InsertAfterCp {α : Type} (cp : α → Option α) (s : SingleLinkedList α)
    (p : Nat) (v : α) : SingleLinkedList α × Option Nat :=
  match cp v with
  | none => (s, none)
  | some w => (⟨linkIn s.elems p w, s.size_ + 1⟩, some (p + 1))

/-- The `CopyList` loop with a throwing element copy: each iteration copies the
next value inside `InsertAfter`'s `new Node`; a throw exits the loop (and the
enclosing constructor) immediately.  `none` = the loop threw. -/
def copyLoopCp {α : Type} (cp : α → Option α) :
    List α → List α → Nat → Nat → Nat → Option (List α × Nat × Nat)
  | [], tmpElems, _, thisSize, tmpSize => some (tmpElems, thisSize, tmpSize)
  | v :: rest, tmpElems, pos, thisSize, tmpSize =>
      match cp v with
      | none => none
      | some w => copyLoopCp cp rest (linkIn tmpElems pos w) (pos + 1) (thisSize + 1) (tmpSize + 1)

/-- `CopyList` with a throwing element copy (`none` = it threw; the partially
built `tmp` is destroyed during unwinding and never swapped in). -/
def SingleLinkedList.CopyListCp {α : Type} (cp : α → Option α) (s : SingleLinkedList α)
    (other : List α) : Option (SingleLinkedList α) :=
  (copyLoopCp cp other [] 0 s.size_ 0).map (fun r => ⟨r.1, r.2.2⟩)

/-- Copy constructor with a throwing element copy: `none` = construction threw
and no object comes into existence. -/
def SingleLinkedList.copyCtorCp {α : Type} (cp : α → Option α) (other : SingleLinkedList α) :
    Option (SingleLinkedList α) :=
  (SingleLinkedList.emptyList α).CopyListCp cp other.elems

/-- `operator=` with a throwing element copy.  `same` models `this == &rhs`;
when not self, `SingleLinkedList tmp(rhs);` runs first — if it throws, the
exception leaves `operator=` before `swap(tmp)`, so `a` is the unchanged
state.  Result: (state of `a` after the call, whether an exception escaped). -/
def SingleLinkedList.operatorAssignCp {α : Type} (cp : α → Option α) (same : Bool)
    (a rhs : SingleLinkedList α) : SingleLinkedList α × Bool :=
  if same then (a, false)
  else
    match SingleLinkedList.copyCtorCp cp rhs with
    | none => (a, true)
    | some tmp => ((SingleLinkedList.swap a tmp).1, false)

/-!
Node-identity model for the deep-copy claim.  Here a chain is a list of
(address, value) pairs; addresses come from a bump allocator, modelling that
every `new` returns an address distinct from all previously allocated ones.
-/

/-- The `CopyList` loop over an address-tagged source chain: each iteration's
`new Node(value, ...)` allocates a fresh address (`alloc`, then `alloc + 1`, …)
for the node holding the copied value, splicing it after node `pos` of `tmp`'s
chain.  Arguments: remaining source nodes, next fresh address, `tmp`'s chain,
`pos`; result: (`tmp`'s chain, next fresh address) at loop exit. -/
def copyChainAddr {α : Type} : List (Nat × α) → Nat → List (Nat × α) → Nat →
    List (Nat × α) × Nat
  | [], alloc, tmpNodes, _ => (tmpNodes, alloc)
  | (_, v) :: rest, alloc, tmpNodes, pos =>
      copyChainAddr rest (alloc + 1) (linkIn tmpNodes pos (alloc, v)) (pos + 1)

/-- Copy construction in the address-tagged model: the chain of the new
container, built from an empty scratch chain with fresh addresses starting at
`alloc`. -/
def copyCtorAddr {α : Type} (alloc : Nat) (src : List (Nat × α)) : List (Nat × α) :=
  (copyChainAddr src alloc [] 0).1

/-- The containers reachable by the public interface: default, sequence and
copy construction, `PushFront`, `PopFront` on a non-empty container,
`InsertAfter`/`EraseAfter` at a position referencing a node of the chain (with
a successor, for `EraseAfter`), `Clear`, `swap` (either side), and
copy-assignment. -/
inductive Reachable {α : Type} : SingleLinkedList α → Prop
  | empty : Reachable (SingleLinkedList.emptyList α)
  | ofList (vals : List α) : Reachable (SingleLinkedList.ofList vals)
  | copy {s : SingleLinkedList α} : Reachable s → Reachable s.copyCtor
  | pushFront {s : SingleLinkedList α} (v : α) : Reachable s → Reachable (s.PushFront v)
  | popFront {s : SingleLinkedList α} : Reachable s → s.elems ≠ [] → Reachable s.PopFront
  | insertAfter {s : SingleLinkedList α} (p : Nat) (v : α) : Reachable s →
      p ≤ s.elems.length → Reachable (s.InsertAfter p v).1
  | eraseAfter {s : SingleLinkedList α} (p : Nat) : Reachable s →
      p < s.elems.length → Reachable (s.EraseAfter p).1
  | clear {s : SingleLinkedList α} : Reachable s → Reachable s.Clear
  | swapFst {s t : SingleLinkedList α} : Reachable s → Reachable t →
      Reachable (SingleLinkedList.swap s t).1
  | swapSnd {s t : SingleLinkedList α} : Reachable s → Reachable t →
      Reachable (SingleLinkedList.swap s t).2
  | assign {s t : SingleLinkedList α} (same : Bool) : Reachable s → Reachable t →
      Reachable (s.operatorAssign same t)

/-- The count invariant: the stored `size_` equals the number of real nodes in
the chain. -/
def SizeInv {α : Type} (s : SingleLinkedList α) : Prop :=
  s.size_ = s.elems.length

/-! ### Basic lemmas about the chain-splice primitives -/

theorem linkIn_len_append {α : Type} (l : List α) (v : α) :
    linkIn l l.length v = l ++ [v] := by
  induction l with
  | nil => rfl
  | cons x l ih => simp [linkIn, ih]

theorem linkIn_eq_take_drop {α : Type} (l : List α) (p : Nat) (v : α) (h : p ≤ l.length) :
    linkIn l p v = l.take p ++ v :: l.drop p := by
  induction l generalizing p with
  | nil =>
      have : p = 0 := Nat.le_zero.mp h
      subst this
      rfl
  | cons x l ih =>
      cases p with
      | zero => rfl
      | succ q =>
          have hq : q ≤ l.length := Nat.le_of_succ_le_succ h
          simp [linkIn, ih q hq]

theorem linkIn_length {α : Type} (l : List α) (p : Nat) (v : α) (h : p ≤ l.length) :
    (linkIn l p v).length = l.length + 1 := by
  rw [linkIn_eq_take_drop l p v h]
  simp
  omega

theorem unlink_eq_take_drop {α : Type} (l : List α) (p : Nat) :
    unlink l p = l.take p ++ l.drop (p + 1) := by
  induction l generalizing p with
  | nil => cases p <;> rfl
  | cons x l ih =>
      cases p with
      | zero => rfl
      | succ q => simp [unlink, ih q]

theorem unlink_length {α : Type} (l : List α) (p : Nat) (h : p < l.length) :
    (unlink l p).length = l.length - 1 := by
  rw [unlink_eq_take_drop]
  simp
  omega

/-! ### The net effect of `CopyList` and its callers -/

theorem copyLoop_spec {α : Type} (rest : List α) :
    ∀ (acc : List α) (ts tms : Nat),
      copyLoop rest acc acc.length ts tms =
        (acc ++ rest, ts + rest.length, tms + rest.length) := by
  induction rest with
  | nil => intro acc ts tms; simp [copyLoop]
  | cons v r ih =>
      intro acc ts tms
      have h1 : linkIn acc acc.length v = acc ++ [v] := linkIn_len_append acc v
      have h2 : acc.length + 1 = (acc ++ [v]).length := by simp
      simp only [copyLoop, h1, h2, ih]
      simp
      omega

theorem copyLoop_nil_start {α : Type} (rest : List α) (ts tms : Nat) :
    copyLoop rest [] 0 ts tms = (rest, ts + rest.length, tms + rest.length) := by
  simpa using copyLoop_spec rest [] ts tms

theorem CopyList_spec {α : Type} (s : SingleLinkedList α) (other : List α) :
    s.CopyList other = ⟨other, other.length⟩ := by
  simp [SingleLinkedList.CopyList, copyLoop_nil_start]

theorem ofList_spec {α : Type} (vals : List α) :
    SingleLinkedList.ofList vals = ⟨vals, vals.length⟩ :=
  CopyList_spec _ vals

theorem copyCtor_spec {α : Type} (other : SingleLinkedList α) :
    other.copyCtor = ⟨other.elems, other.elems.length⟩ :=
  CopyList_spec _ other.elems

theorem Clear_spec {α : Type} (l : List α) (n : Nat) :
    SingleLinkedList.Clear ⟨l, n⟩ = ⟨[], n - l.length⟩ := by
  induction l generalizing n with
  | nil => simp [SingleLinkedList.Clear]
  | cons x l ih =>
      have h1 : SingleLinkedList.PopFront ⟨x :: l, n⟩ = ⟨l, n - 1⟩ := by
        simp [SingleLinkedList.PopFront, SingleLinkedList.EraseAfter, unlink]
      rw [SingleLinkedList.Clear, h1, ih]
      simp
      omega

/-! ### `PushFront` folds -/

theorem foldl_pushFront_elems {α : Type} (vs : List α) :
    ∀ s : SingleLinkedList α,
      (vs.foldl SingleLinkedList.PushFront s).elems = vs.reverse ++ s.elems := by
  induction vs with
  | nil => intro s; simp
  | cons v r ih =>
      intro s
      simp [List.foldl_cons, ih, SingleLinkedList.PushFront]

theorem foldl_pushFront_size {α : Type} (vs : List α) :
    ∀ s : SingleLinkedList α,
      (vs.foldl SingleLinkedList.PushFront s).size_ = s.size_ + vs.length := by
  induction vs with
  | nil => intro s; simp
  | cons v r ih =>
      intro s
      simp [List.foldl_cons, ih, SingleLinkedList.PushFront]
      omega

/-! ### Claim theorems -/

/-- Claim C2: every container reachable by the public operations (constructors,
`PushFront`, `PopFront` on non-empty, `InsertAfter`/`EraseAfter` at valid
positions, `Clear`, `swap`, copy-assignment) keeps the stored count equal to
the number of real nodes of the chain, so `GetSize()` returns the net number of
insertions minus removals.  (Finiteness/acyclicity of the chain and the empty
final link are structural in the list representation.) -/
theorem claim_C2_size_invariant {α : Type} (s : SingleLinkedList α) (h : Reachable s) :
    SingleLinkedList.GetSize s = s.elems.length := by
  induction h with
  | empty => rfl
  | ofList vals => rw [ofList_spec]; rfl
  | copy _ _ => rw [copyCtor_spec]; rfl
  | pushFront v _ ih =>
      simp [SingleLinkedList.PushFront, SingleLinkedList.GetSize] at ih ⊢
      omega
  | popFront hr hne ih =>
      rename_i t
      simp [SingleLinkedList.PopFront, SingleLinkedList.EraseAfter,
        SingleLinkedList.GetSize] at ih ⊢
      rw [unlink_eq_take_drop]
      have hlen : 0 < t.elems.length := List.length_pos.mpr hne
      simp
      omega
  | insertAfter p v _ hp ih =>
      simp [SingleLinkedList.InsertAfter, SingleLinkedList.GetSize] at ih ⊢
      rw [linkIn_length _ _ _ hp]
      omega
  | eraseAfter p _ hp ih =>
      simp [SingleLinkedList.EraseAfter, SingleLinkedList.GetSize] at ih ⊢
      rw [unlink_length _ _ hp]
      omega
  | clear _ ih =>
      rename_i t _
      have : t = ⟨t.elems, t.size_⟩ := rfl
      rw [this, Clear_spec]
      simp [SingleLinkedList.GetSize] at ih ⊢
      omega
  | swapFst _ _ _ ih2 => exact ih2
  | swapSnd _ _ ih1 _ => exact ih1
  | assign same _ _ ih1 _ =>
      cases same with
      | true => simpa [SingleLinkedList.operatorAssign] using ih1
      | false =>
          simp [SingleLinkedList.operatorAssign, SingleLinkedList.swap, copyCtor_spec,
            SingleLinkedList.GetSize]

/-- Witness for C2 at a concrete reachable container. -/
theorem claim_C2_size_invariant_witness :
    SingleLinkedList.GetSize ((SingleLinkedList.emptyList Int).PushFront 5) =
      ((SingleLinkedList.emptyList Int).PushFront 5).elems.length :=
  claim_C2_size_invariant _ (Reachable.pushFront 5 Reachable.empty)

/-- Claim C3: the ordered-sequence constructor builds a chain whose traversal
yields exactly the input values in input order, with size equal to the input
length; in particular `{1,2,3}` traverses as `1,2,3`. -/
theorem claim_C3_ofList {α : Type} (vals : List α) :
    (SingleLinkedList.ofList vals).elems = vals ∧
    (SingleLinkedList.ofList vals).GetSize = vals.length ∧
    (SingleLinkedList.ofList [1, 2, 3] : SingleLinkedList Int).elems = [1, 2, 3] := by
  refine ⟨?_, ?_, ?_⟩ <;> simp [ofList_spec, SingleLinkedList.GetSize]

/-- Claim C5: `InsertAfter(pos, v)` at a position referencing node `p` of the
chain splices a new node holding `v` immediately after it: the first `p` values
and the remaining values are unchanged and in order, the count grows by one,
the returned handle references the new node (node `p + 1`, value index `p`),
and inserting after `before_begin()` (`p = 0`) makes `v` the first element. -/
theorem claim_C5_insertAfter {α : Type} (s : SingleLinkedList α) (p : Nat) (v : α)
    (h : p ≤ s.elems.length) :
    ((s.InsertAfter p v).1).elems = s.elems.take p ++ v :: s.elems.drop p ∧
    ((s.InsertAfter p v).1).GetSize = s.GetSize + 1 ∧
    (s.InsertAfter p v).2 = p + 1 ∧
    ((s.InsertAfter p v).1).elems[p]? = some v ∧
    ((s.InsertAfter 0 v).1).elems.head? = some v := by
  have htake : (s.elems.take p).length = p := List.length_take_of_le h
  refine ⟨?_, rfl, rfl, ?_, ?_⟩
  · simp [SingleLinkedList.InsertAfter, linkIn_eq_take_drop _ _ _ h]
  · rw [show ((s.InsertAfter p v).1).elems = linkIn s.elems p v from rfl,
      linkIn_eq_take_drop _ _ _ h, List.getElem?_append_right (by omega), htake]
    simp
  · rcases s with ⟨l, n⟩
    cases l <;> rfl

/-- Claim C6: `EraseAfter(pos)` at a position referencing node `p` whose next
link is non-empty removes exactly that next node (value index `p`): the first
`p` values and the values after the removed one are unchanged and in order, the
count drops by one, the returned handle references the node now following `pos`
(the value formerly at index `p + 1`) or is the end position when none follows;
erasing after `before_begin()` removes exactly the first element, and a
one-element container becomes empty. -/
theorem claim_C6_eraseAfter {α : Type} (s : SingleLinkedList α) (p : Nat)
    (h : p < s.elems.length) :
    ((s.EraseAfter p).1).elems = s.elems.take p ++ s.elems.drop (p + 1) ∧
    ((s.EraseAfter p).1).GetSize = s.GetSize - 1 ∧
    ((s.EraseAfter p).1).elems[p]? = s.elems[p + 1]? ∧
    (p < ((s.EraseAfter p).1).elems.length → (s.EraseAfter p).2 = some (p + 1)) ∧
    (((s.EraseAfter p).1).elems.length ≤ p → (s.EraseAfter p).2 = none) ∧
    ((s.EraseAfter 0).1).elems = s.elems.tail ∧
    (s.elems.length = 1 → ((s.EraseAfter 0).1).elems = []) := by
  have htake : (s.elems.take p).length = p := List.length_take_of_le (Nat.le_of_lt h)
  have helems : ((s.EraseAfter p).1).elems = s.elems.take p ++ s.elems.drop (p + 1) := by
    simp [SingleLinkedList.EraseAfter, unlink_eq_take_drop]
  refine ⟨helems, rfl, ?_, ?_, ?_, ?_, ?_⟩
  · rw [helems, List.getElem?_append_right (by omega), htake]
    simp [List.getElem?_drop]
  · intro hlt
    simp only [SingleLinkedList.EraseAfter]
    rw [if_pos]
    simpa [SingleLinkedList.EraseAfter, unlink_eq_take_drop] using hlt
  · intro hge
    have hge2 : (unlink s.elems p).length ≤ p := hge
    show (if p < (unlink s.elems p).length then some (p + 1) else none) = none
    rw [if_neg (Nat.not_lt.mpr hge2)]
  · simp [SingleLinkedList.EraseAfter, unlink_eq_take_drop]
  · intro h1
    simp [SingleLinkedList.EraseAfter, unlink_eq_take_drop, List.drop_eq_nil_of_le, h1]

/-- Witness for C5: inserting 9 after node 1 of `[1, 2]`. -/
theorem claim_C5_insertAfter_witness :
    (1 ≤ (SingleLinkedList.ofList [1, 2] : SingleLinkedList Int).elems.length) ∧
    (((SingleLinkedList.ofList [1, 2] : SingleLinkedList Int).InsertAfter 1 9).1).elems =
        (SingleLinkedList.ofList [1, 2] : SingleLinkedList Int).elems.take 1 ++
          9 :: (SingleLinkedList.ofList [1, 2] : SingleLinkedList Int).elems.drop 1 :=
  ⟨by rw [ofList_spec]; decide,
    (claim_C5_insertAfter (SingleLinkedList.ofList [1, 2]) 1 9
      (by rw [ofList_spec]; decide)).1⟩

/-- Witness for C6: erasing after node 1 of `[1, 2, 3]`. -/
theorem claim_C6_eraseAfter_witness :
    (1 < (SingleLinkedList.ofList [1, 2, 3] : SingleLinkedList Int).elems.length) ∧
    (((SingleLinkedList.ofList [1, 2, 3] : SingleLinkedList Int).EraseAfter 1).1).elems =
        (SingleLinkedList.ofList [1, 2, 3] : SingleLinkedList Int).elems.take 1 ++
          (SingleLinkedList.ofList [1, 2, 3] : SingleLinkedList Int).elems.drop 2 :=
  ⟨by rw [ofList_spec]; decide,
    (claim_C6_eraseAfter (SingleLinkedList.ofList [1, 2, 3]) 1
      (by rw [ofList_spec]; decide)).1⟩

/-- Claim C7: pushing `v1..vn` via `PushFront` onto an initially empty
container yields the traversal `vn, …, v1`; each `PushFront` makes its value
the new first element and increments the count by one. -/
theorem claim_C7_pushFront {α : Type} (vs : List α) (s : SingleLinkedList α) (v : α) :
    (vs.foldl SingleLinkedList.PushFront (SingleLinkedList.emptyList α)).elems = vs.reverse ∧
    (vs.foldl SingleLinkedList.PushFront (SingleLinkedList.emptyList α)).GetSize = vs.length ∧
    (s.PushFront v).elems.head? = some v ∧
    (s.PushFront v).GetSize = s.GetSize + 1 := by
  refine ⟨?_, ?_, ?_, ?_⟩
  · simp [foldl_pushFront_elems, SingleLinkedList.emptyList]
  · simp [SingleLinkedList.GetSize, foldl_pushFront_size, SingleLinkedList.emptyList]
  · rfl
  · rfl

/-- The equality of the spec, for comparison with `operatorEq` ("two containers
are equal iff they have the same length and pairwise-equal elements in
traversal order" — i.e. equal value chains). -/
def specEqual {α : Type} (a b : SingleLinkedList α) : Prop :=
  a.elems = b.elems

/-- Claim C1 fails on the code: `operator==` is the three-argument
`std::equal(lhs.begin(), lhs.end(), rhs.begin())`, which never compares
lengths, so the strict proper prefix `{1}` of `{1, 2}` compares **equal** to it
(and `operator!=`, its negation, returns `false`), while the claimed equality
is false for containers of different lengths. -/
theorem claim_C1_counterexample :
    operatorEq (SingleLinkedList.ofList [1]) (SingleLinkedList.ofList [1, 2] :
        SingleLinkedList Int) = some true ∧
    operatorNe (SingleLinkedList.ofList [1]) (SingleLinkedList.ofList [1, 2] :
        SingleLinkedList Int) = some false ∧
    ¬ specEqual (SingleLinkedList.ofList [1]) (SingleLinkedList.ofList [1, 2] :
        SingleLinkedList Int) := by
  refine ⟨?_, ?_, ?_⟩ <;>
    simp [operatorEq, operatorNe, specEqual, ofList_spec, stdEqual]

/-! ### Lexicographic comparison (C9) -/

theorem lexicographicalCompare_iff_Lex {α : Type} [LinearOrder α] (l : List α) :
    ∀ r : List α, lexicographicalCompare l r = true ↔ List.Lex (. < .) l r := by
  induction l with
  | nil =>
      intro r
      cases r with
      | nil => simp [lexicographicalCompare]
      | cons b rr =>
          simp only [lexicographicalCompare]
          exact iff_of_true trivial List.Lex.nil
  | cons a ll ih =>
      intro r
      cases r with
      | nil => simp [lexicographicalCompare]
      | cons b rr =>
          simp only [lexicographicalCompare]
          by_cases h1 : a < b
          · simp only [h1, if_true]
            exact iff_of_true trivial (List.Lex.rel h1)
          · by_cases h2 : b < a
            · simp only [h1, h2, if_false, if_true]
              refine iff_of_false (by simp) ?_
              intro hL
              cases hL with
              | cons h => exact absurd h2 (lt_irrefl a)
              | rel hr => exact h1 hr
            · have hab : a = b := le_antisymm (not_lt.mp h2) (not_lt.mp h1)
              subst hab
              simp only [h1, h2, if_false]
              rw [List.Lex.cons_iff]
              exact ih rr

theorem lexicographicalCompare_append_same {α : Type} [LinearOrder α] (l l1 l2 : List α) :
    lexicographicalCompare (l ++ l1) (l ++ l2) = lexicographicalCompare l1 l2 := by
  induction l with
  | nil => rfl
  | cons a t ih => simp [lexicographicalCompare, lt_irrefl a, ih]

theorem stdEqual_append_same {α : Type} [DecidableEq α] (l l1 l2 : List α) :
    stdEqual (l ++ l1) (l ++ l2) = stdEqual l1 l2 := by
  induction l with
  | nil => rfl
  | cons a t ih => simp [stdEqual, ih]

/-- Claim C9: `operator<` is the standard lexicographic comparison of the
traversal sequences by elementwise `<` (characterised by `List.Lex`); the
derived operators satisfy `a <= b ↔ !(b < a)`, `a > b ↔ b < a`,
`a >= b ↔ !(a < b)`; two empty containers compare equal; and two containers
differing only in the last element compare unequal, with `<` matching the
elementwise order of those last elements. -/
theorem claim_C9_ordering {α : Type} [LinearOrder α] (a b : SingleLinkedList α)
    (l : List α) (x y : α) (n m : Nat) (hxy : x < y) :
    (operatorLt a b = true ↔ List.Lex (. < .) a.elems b.elems) ∧
    operatorLe a b = !(operatorLt b a) ∧
    operatorGt a b = operatorLt b a ∧
    operatorGe a b = !(operatorLt a b) ∧
    operatorLt (SingleLinkedList.emptyList α) (SingleLinkedList.emptyList α) = false ∧
    operatorEq (SingleLinkedList.emptyList α) (SingleLinkedList.emptyList α) = some true ∧
    operatorLt (⟨l ++ [x], n⟩ : SingleLinkedList α) ⟨l ++ [y], m⟩ = true ∧
    operatorGt (⟨l ++ [x], n⟩ : SingleLinkedList α) ⟨l ++ [y], m⟩ = false ∧
    operatorEq (⟨l ++ [x], n⟩ : SingleLinkedList α) ⟨l ++ [y], m⟩ = some false := by
  refine ⟨lexicographicalCompare_iff_Lex a.elems b.elems, rfl, rfl, rfl, rfl, rfl, ?_, ?_, ?_⟩
  · show lexicographicalCompare (l ++ [x]) (l ++ [y]) = true
    rw [lexicographicalCompare_append_same]
    simp [lexicographicalCompare, hxy]
  · show lexicographicalCompare (l ++ [y]) (l ++ [x]) = false
    rw [lexicographicalCompare_append_same]
    simp [lexicographicalCompare, hxy, not_lt_of_lt hxy]
  · show stdEqual (l ++ [x]) (l ++ [y]) = some false
    rw [stdEqual_append_same]
    simp [stdEqual, ne_of_lt hxy]

/-- Witness for C9 at concrete containers over `Int`. -/
theorem claim_C9_ordering_witness :
    ((1 : Int) < 2) ∧
    ((operatorLt (SingleLinkedList.ofList [3]) (SingleLinkedList.ofList [4] :
          SingleLinkedList Int) = true ↔
        List.Lex (. < .) (SingleLinkedList.ofList [3] : SingleLinkedList Int).elems
          (SingleLinkedList.ofList [4] : SingleLinkedList Int).elems) ∧
      operatorLe (SingleLinkedList.ofList [3]) (SingleLinkedList.ofList [4] :
          SingleLinkedList Int) =
        !(operatorLt (SingleLinkedList.ofList [4]) (SingleLinkedList.ofList [3])) ∧
      operatorGt (SingleLinkedList.ofList [3]) (SingleLinkedList.ofList [4] :
          SingleLinkedList Int) =
        operatorLt (SingleLinkedList.ofList [4]) (SingleLinkedList.ofList [3]) ∧
      operatorGe (SingleLinkedList.ofList [3]) (SingleLinkedList.ofList [4] :
          SingleLinkedList Int) =
        !(operatorLt (SingleLinkedList.ofList [3]) (SingleLinkedList.ofList [4])) ∧
      operatorLt (SingleLinkedList.emptyList Int) (SingleLinkedList.emptyList Int) = false ∧
      operatorEq (SingleLinkedList.emptyList Int) (SingleLinkedList.emptyList Int) =
        some true ∧
      operatorLt (⟨[0] ++ [1], 2⟩ : SingleLinkedList Int) ⟨[0] ++ [2], 2⟩ = true ∧
      operatorGt (⟨[0] ++ [1], 2⟩ : SingleLinkedList Int) ⟨[0] ++ [2], 2⟩ = false ∧
      operatorEq (⟨[0] ++ [1], 2⟩ : SingleLinkedList Int) ⟨[0] ++ [2], 2⟩ = some false) :=
  ⟨by decide,
    claim_C9_ordering (SingleLinkedList.ofList [3]) (SingleLinkedList.ofList [4])
      [0] 1 2 2 2 (by decide)⟩

/-! ### Copy-and-swap with throwing copies (C4, C10) -/

theorem copyLoopCp_some {α : Type} (vals : List α) :
    ∀ (acc : List α) (pos ts tms : Nat),
      copyLoopCp some vals acc pos ts tms = some (copyLoop vals acc pos ts tms) := by
  induction vals with
  | nil => intro acc pos ts tms; rfl
  | cons v rest ih => intro acc pos ts tms; simp [copyLoopCp, copyLoop, ih]

theorem copyLoopCp_none {α : Type} (cp : α → Option α) (vals : List α) :
    ∀ (acc : List α) (pos ts tms : Nat), (∃ v ∈ vals, cp v = none) →
      copyLoopCp cp vals acc pos ts tms = none := by
  induction vals with
  | nil =>
      intro acc pos ts tms h
      rcases h with ⟨v, hv, _⟩
      exact absurd hv (List.not_mem_nil v)
  | cons v rest ih =>
      intro acc pos ts tms h
      cases hcv : cp v with
      | none => simp [copyLoopCp, hcv]
      | some w =>
          rcases h with ⟨u, hu, hcu⟩
          rcases List.mem_cons.mp hu with h1 | h2
          · subst h1; rw [hcu] at hcv; exact absurd hcv (by simp)
          · simp only [copyLoopCp, hcv]
            exact ih _ _ _ _ ⟨u, h2, hcu⟩

theorem copyCtorCp_some {α : Type} (b : SingleLinkedList α) :
    SingleLinkedList.copyCtorCp some b = some b.copyCtor := by
  simp [SingleLinkedList.copyCtorCp, SingleLinkedList.CopyListCp, copyLoopCp_some,
    SingleLinkedList.copyCtor, SingleLinkedList.CopyList]

/-- Claim C4: after `a = b` (distinct objects, no throw) the container holds
exactly `b`'s elements with `b`'s size; if copying any element of `b` throws
while the temporary is built, the exception escapes and `a` is unchanged
(copy-and-swap atomicity); self-assignment `a = a` is short-circuited by the
identity check and leaves `a` unchanged. -/
theorem claim_C4_assignment {α : Type} (a b : SingleLinkedList α) (hb : SizeInv b) :
    ((SingleLinkedList.operatorAssignCp some false a b).1.elems = b.elems ∧
      (SingleLinkedList.operatorAssignCp some false a b).1.GetSize = b.GetSize ∧
      (SingleLinkedList.operatorAssignCp some false a b).2 = false) ∧
    (∀ cp : α → Option α, (∃ v ∈ b.elems, cp v = none) →
      SingleLinkedList.operatorAssignCp cp false a b = (a, true)) ∧
    (∀ cp : α → Option α, SingleLinkedList.operatorAssignCp cp true a a = (a, false)) := by
  refine ⟨?_, ?_, ?_⟩
  · rw [SizeInv] at hb
    simp [SingleLinkedList.operatorAssignCp, copyCtorCp_some, SingleLinkedList.swap,
      copyCtor_spec, SingleLinkedList.GetSize, hb]
  · intro cp hex
    simp [SingleLinkedList.operatorAssignCp, SingleLinkedList.copyCtorCp,
      SingleLinkedList.CopyListCp, copyLoopCp_none cp b.elems _ _ _ _ hex]
  · intro cp
    rfl

/-- Witness for C4 at `a = {7}`, `b = {1, 2}`. -/
theorem claim_C4_assignment_witness :
    SizeInv (SingleLinkedList.ofList [1, 2] : SingleLinkedList Int) ∧
    (((SingleLinkedList.operatorAssignCp some false (SingleLinkedList.ofList [7])
          (SingleLinkedList.ofList [1, 2] : SingleLinkedList Int)).1.elems =
        (SingleLinkedList.ofList [1, 2] : SingleLinkedList Int).elems ∧
      (SingleLinkedList.operatorAssignCp some false (SingleLinkedList.ofList [7])
          (SingleLinkedList.ofList [1, 2] : SingleLinkedList Int)).1.GetSize =
        (SingleLinkedList.ofList [1, 2] : SingleLinkedList Int).GetSize ∧
      (SingleLinkedList.operatorAssignCp some false (SingleLinkedList.ofList [7])
          (SingleLinkedList.ofList [1, 2] : SingleLinkedList Int)).2 = false) ∧
    (∀ cp : Int → Option Int,
      (∃ v ∈ (SingleLinkedList.ofList [1, 2] : SingleLinkedList Int).elems, cp v = none) →
      SingleLinkedList.operatorAssignCp cp false (SingleLinkedList.ofList [7])
          (SingleLinkedList.ofList [1, 2]) = (SingleLinkedList.ofList [7], true)) ∧
    (∀ cp : Int → Option Int,
      SingleLinkedList.operatorAssignCp cp true (SingleLinkedList.ofList [7])
          (SingleLinkedList.ofList [7]) = (SingleLinkedList.ofList [7], false))) :=
  ⟨by rw [SizeInv, ofList_spec],
    claim_C4_assignment (SingleLinkedList.ofList [7]) (SingleLinkedList.ofList [1, 2])
      (by rw [SizeInv, ofList_spec])⟩

/-- Claim C10: if the element copy inside `new Node(value, ...)` throws during
`InsertAfter(pos, v)` at a valid position, the call is atomic — the copy
precedes any relinking or count change in the source, so the exception
propagates (`none` returned) with the container state exactly as before. -/
theorem claim_C10_insertAfter_atomic {α : Type} (cp : α → Option α)
    (s : SingleLinkedList α) (p : Nat) (v : α) (_hp : p ≤ s.elems.length)
    (hthrow : cp v = none) :
    SingleLinkedList.InsertAfterCp cp s p v = (s, none) := by
  simp [SingleLinkedList.InsertAfterCp, hthrow]

/-- Witness for C10: a copy that always throws, inserting after the sentinel of
`{1}`. -/
theorem claim_C10_insertAfter_atomic_witness :
    (0 ≤ (SingleLinkedList.ofList [1] : SingleLinkedList Int).elems.length ∧
      (fun _ : Int => (none : Option Int)) 5 = none) ∧
    SingleLinkedList.InsertAfterCp (fun _ : Int => none)
        (SingleLinkedList.ofList [1]) 0 5 =
      (SingleLinkedList.ofList [1], none) :=
  ⟨⟨Nat.zero_le _, rfl⟩,
    claim_C10_insertAfter_atomic (fun _ : Int => none) (SingleLinkedList.ofList [1]) 0 5
      (Nat.zero_le _) rfl⟩

/-! ### Deep copy with node identities (C8) -/

theorem copyChainAddr_spec {α : Type} (rest : List (Nat × α)) :
    ∀ (alloc : Nat) (acc : List (Nat × α)),
      copyChainAddr rest alloc acc acc.length =
        (acc ++ (List.range' alloc rest.length).zip (rest.map Prod.snd),
          alloc + rest.length) := by
  induction rest with
  | nil => intro alloc acc; simp [copyChainAddr]
  | cons hd r ih =>
      rcases hd with ⟨i, v⟩
      intro alloc acc
      have h1 : linkIn acc acc.length (alloc, v) = acc ++ [(alloc, v)] :=
        linkIn_len_append acc (alloc, v)
      have h2 : acc.length + 1 = (acc ++ [(alloc, v)]).length := by simp
      simp only [copyChainAddr, h1, h2, ih]
      simp [List.range'_succ]
      omega

theorem copyCtorAddr_spec {α : Type} (alloc : Nat) (src : List (Nat × α)) :
    copyCtorAddr alloc src = (List.range' alloc src.length).zip (src.map Prod.snd) := by
  have h := copyChainAddr_spec src alloc []
  simp only [List.length_nil] at h
  simp [copyCtorAddr, h]

/-- Claim C8: copy construction yields a container elementwise equal to the
source with the same size, and — in the address-tagged model, where every
`new` of `CopyList` returns a fresh address — the copy's nodes are disjoint
from the source's nodes (deep copy, no sharing), so mutations of either
container can only touch its own nodes. -/
theorem claim_C8_deep_copy {α : Type} (src : SingleLinkedList α) (hsrc : SizeInv src)
    (addrSrc : List (Nat × α)) (alloc : Nat)
    (hlive : ∀ i ∈ addrSrc.map Prod.fst, i < alloc) :
    (src.copyCtor.elems = src.elems ∧ src.copyCtor.GetSize = src.GetSize) ∧
    ((copyCtorAddr alloc addrSrc).map Prod.snd = addrSrc.map Prod.snd ∧
      (copyCtorAddr alloc addrSrc).length = addrSrc.length ∧
      ∀ i ∈ (copyCtorAddr alloc addrSrc).map Prod.fst, i ∉ addrSrc.map Prod.fst) := by
  have hlen : (List.range' alloc addrSrc.length).length = addrSrc.length :=
    List.length_range' _ _ _
  have hmaplen : (addrSrc.map Prod.snd).length = addrSrc.length := List.length_map _ _
  refine ⟨⟨?_, ?_⟩, ?_, ?_, ?_⟩
  · rw [copyCtor_spec]
  · rw [copyCtor_spec, SizeInv] at *
    simp [SingleLinkedList.GetSize]
    omega
  · rw [copyCtorAddr_spec]
    exact List.map_snd_zip _ _ (by omega)
  · rw [copyCtorAddr_spec]
    simp [List.length_zip, hlen, hmaplen]
  · intro i hi hmem
    rw [copyCtorAddr_spec] at hi
    rw [List.map_fst_zip _ _ (by omega)] at hi
    have h1 : alloc ≤ i := (List.mem_range'_1.mp hi).1
    have h2 : i < alloc := hlive i hmem
    omega

/-- Witness for C8: source `{4, 5}` with addresses 0 and 1, allocator at 2. -/
theorem claim_C8_deep_copy_witness :
    (SizeInv (SingleLinkedList.ofList [4, 5] : SingleLinkedList Int) ∧
      ∀ i ∈ ([(0, 4), (1, 5)] : List (Nat × Int)).map Prod.fst, i < 2) ∧
    (((SingleLinkedList.ofList [4, 5] : SingleLinkedList Int).copyCtor.elems =
        (SingleLinkedList.ofList [4, 5] : SingleLinkedList Int).elems ∧
      (SingleLinkedList.ofList [4, 5] : SingleLinkedList Int).copyCtor.GetSize =
        (SingleLinkedList.ofList [4, 5] : SingleLinkedList Int).GetSize) ∧
    ((copyCtorAddr 2 ([(0, 4), (1, 5)] : List (Nat × Int))).map Prod.snd =
        ([(0, 4), (1, 5)] : List (Nat × Int)).map Prod.snd ∧
      (copyCtorAddr 2 ([(0, 4), (1, 5)] : List (Nat × Int))).length =
        ([(0, 4), (1, 5)] : List (Nat × Int)).length ∧
      ∀ i ∈ (copyCtorAddr 2 ([(0, 4), (1, 5)] : List (Nat × Int))).map Prod.fst,
        i ∉ ([(0, 4), (1, 5)] : List (Nat × Int)).map Prod.fst)) :=
  ⟨⟨by rw [SizeInv, ofList_spec], by decide⟩,
    claim_C8_deep_copy (SingleLinkedList.ofList [4, 5]) (by rw [SizeInv, ofList_spec])
      [(0, 4), (1, 5)] 2 (by decide)⟩
